import Mathlib

/-!
# Verification of the procedural terrain generation core

Shallow embedding of the terrain streaming system:

* `src/heightGenerator.js` — the deterministic height function (`getHeight`),
  embedded over `ℝ` (JavaScript's IEEE doubles are modelled as real numbers);
  a throwing evaluation (calling a missing noise generator) is modelled as
  `Option.none`.
* `src/chunkManager.js` — the chunk store and streaming scheduler
  (`ChunkManager`), embedded as an explicit state machine whose tick function
  mirrors `updateChunks`; the per-tick target position is the tick's input.
* `src/chunk.js` — only the pieces of `Chunk` observable by the manager are
  tracked (its `coords`, its current `LOD` and its object identity).

All scheduler definitions are computable so concrete traces evaluate by
`decide` / `rfl`.
-/

namespace Terrain

/-! ## Height generator (`src/heightGenerator.js`) -/

/-- One 2D noise generator (`createNoise2D()` instance): a pure function of
the sample coordinates.  The octave table `noises` is a list of these. -/
abbrev Noise : Type := ℝ → ℝ → ℝ

/-- The terrain parameters read by `getHeight` (the `params` object).
`persistance` keeps the source's spelling. -/
structure HP where
  amplitude : ℝ
  persistance : ℝ
  lacunarity : ℝ
  octaves : ℕ
  frequencyX : ℝ
  frequencyZ : ℝ

/-- One iteration of the octave loop of `getHeight`
(`increment = noises[j](x*0.01*fx*lac, z*0.01*fz*lac); increment *= increment;
h += increment * amplitude`).  Accessing a missing generator (`noises[j]`
with `j ≥ noises.length`) throws in JavaScript, hence `none`. -/
noncomputable def octaveStep (ns : List Noise) (p : HP) (x z : ℝ)
    (acc : Option ℝ) (j : ℕ) : Option ℝ :=
  acc.bind fun h =>
    (ns[j]?).map fun f =>
      let amplitude := p.amplitude * p.persistance ^ j
      let lac := p.lacunarity ^ j
      let inc := f (x * 0.01 * p.frequencyX * lac) (z * 0.01 * p.frequencyZ * lac)
      h + inc * inc * amplitude

/-- The octave loop `for (let j = 0; j < Math.min(params.octaves, 3); j++)`. -/
noncomputable def octaveSum (ns : List Noise) (p : HP) (x z : ℝ) : Option ℝ :=
  (List.range (min p.octaves 3)).foldl (octaveStep ns p x z) (some 0)

/-- `mountainMassif = Math.max(0, 1 - distFromCenter * 1.2)` with
`distFromCenter = Math.sqrt(x*x + z*z) * 0.002`. -/
noncomputable def massifFactor (x z : ℝ) : ℝ :=
  max 0 (1 - Real.sqrt (x * x + z * z) * 0.002 * 1.2)

/-- `pathDist = Math.abs(x * pathZ - z * pathX) * 0.02` with
`pathX = pathZ = 0.7071`. -/
def heightPathDist (x z : ℝ) : ℝ := |x * 0.7071 - z * 0.7071| * 0.02

/-- `pathMask = Math.min(1, pathDist * 8)`. -/
def heightPathMask (x z : ℝ) : ℝ := min 1 (heightPathDist x z * 8)

/-- The path-carving step of `getHeight`: `h *= pathMask`. -/
def pathStep (x z h : ℝ) : ℝ := h * heightPathMask x z

/-- `getHeight(x, z, noises, params)` from `src/heightGenerator.js`.
`noises = none` models a null/undefined table (the `if (!noises) return 30`
guard); a `none` result models a thrown `TypeError` from calling a missing
array entry. -/
noncomputable def getHeight (x z : ℝ) (noises : Option (List Noise)) (p : HP) :
    Option ℝ :=
  match noises with
  | none => some 30
  | some ns =>
    (octaveSum ns p x z).bind fun h0 =>
    let h1 := h0 * (massifFactor x z * 1.5 + 0.2)
    let h2 := pathStep x z h1
    (if heightPathMask x z < 0.5 then
        (ns[0]?).map fun f => h2 + f (x * 0.1) (z * 0.1) * 0.8 * heightPathMask x z
      else some h2).bind fun h3 =>
    (ns[1]?).map fun f1 =>
      let facetNoise := f1 ((⌊x / 12⌋ : ℤ) * 12 * 0.01) ((⌊z / 12⌋ : ℤ) * 12 * 0.01)
      max (h3 + facetNoise * 1.5) 0

/-- A valid noise table: every generator returns values in `[-1, 1]`. -/
def ValidNoise (ns : List Noise) : Prop :=
  ∀ f ∈ ns, ∀ a b : ℝ, |f a b| ≤ 1

/-- The all-zero noise generator (a degenerate but valid table entry). -/
def zeroNoise : Noise := fun _ _ => 0

/-- The all-zero noise table of length 6 (a valid table for `octaves = 6`). -/
def Z6 : List Noise := List.replicate 6 zeroNoise

/-- The parameter set of the end-to-end property in the spec
(`{amplitude:35, octaves:6, persistance:0.55, lacunarity:2.2,
frequency:{0.7,0.7}}`). -/
def specParams : HP :=
  { amplitude := 35, persistance := 0.55, lacunarity := 2.2, octaves := 6
    frequencyX := 0.7, frequencyZ := 0.7 }

/-! ## LOD policy (`ChunkManager.getLODbyCoords`)

The source computes `Math.floor((distFromPlayer * 0.7 + distFromMountain * 0.3)
* 0.9)` where both distances are Euclidean lengths of integer grid offsets.
The embedding computes the same floor exactly over the squared distances
(`(d1*0.7 + d2*0.3)*0.9 = (63*d1 + 27*d2)/100`), so the scheduler stays
computable; `lodSq_eq_floor` proves it equal to the real-valued formula. -/

/-- Decides `m ≤ 63·√a + 27·√b` (all naturals) exactly, by squaring twice:
first `m² ≤ 3969a + 729b + 3402√(ab)`, then — when the constant part is
exceeded — `(m² − (3969a + 729b))² ≤ 3402²·ab`. -/
def le63_27 (m a b : ℕ) : Bool :=
  decide (m ^ 2 ≤ 3969 * a + 729 * b) ||
    decide ((m ^ 2 - (3969 * a + 729 * b)) ^ 2 ≤ 11573604 * (a * b))

/-- Upward search for the largest `m` (up to the fuel) with
`100·m ≤ 63·√a + 27·√b`; fuel is peeled only while the bound holds. -/
def lodFuel (a b : ℕ) : ℕ → ℕ → ℕ
  | 0, m => m
  | fuel + 1, m =>
      if le63_27 (100 * (m + 1)) a b then lodFuel a b fuel (m + 1) else m

/-- `⌊(d1·0.7 + d2·0.3)·0.9⌋` for `d1 = √a`, `d2 = √b` (squared distances
`a`, `b`); see `lodSq_eq_floor`. -/
def lodSq (a b : ℕ) : ℕ := lodFuel a b (63 * a + 27 * b + 1) 0

/-- `ChunkManager.getLODbyCoords(k, w)` with the target at grid coordinate
`(i, j)`: `distFromMountain = |(k, w)|`, `distFromPlayer = |(k - i, w - j)|`,
result `Math.floor((distFromPlayer * 0.7 + distFromMountain * 0.3) * 0.9)`. -/
def getLODbyCoords (k w i j : ℤ) : ℕ :=
  lodSq (((k - i) ^ 2 + (w - j) ^ 2).toNat) ((k ^ 2 + w ^ 2).toNat)

/-- Euclidean length of an integer grid offset (`Vector2.length()`). -/
noncomputable def distR (dx dy : ℤ) : ℝ :=
  Real.sqrt ((dx : ℝ) ^ 2 + (dy : ℝ) ^ 2)

/-- The LOD policy as the spec states it:
`floor(tuning · (0.7·distToTarget + 0.3·distToOrigin))` with `tuning = 0.9`. -/
noncomputable def desiredLOD (d1 d2 : ℝ) : ℤ :=
  ⌊(0.9 : ℝ) * (0.7 * d1 + 0.3 * d2)⌋

/-! ## Chunk manager state machine (`src/chunkManager.js`)

The scheduler is embedded as an explicit, fully computable state machine.
One `tick` is one call of `updateChunks()`; its input is the target's
horizontal position for that tick.  Distance comparisons against integer
thresholds are performed on squared integer distances (exactly equivalent to
the source's `Math.sqrt(...)  <= n` comparisons), and the stored LOD values
come from the exact `getLODbyCoords` above. -/

/-- A chunk key: the integer grid coordinate `(i, j)` behind the string key
`` `${i}|${j}` `` (the string form is injective on integer pairs). -/
abbrev Key : Type := ℤ × ℤ

/-- The manager-visible state of a `Chunk` object: its JavaScript object
identity `cid` (a creation counter), its `coords` field and its current
`LOD` (the constructor stores `this.LOD = LOD`; `updateLOD` replaces it). -/
structure ChunkObj where
  cid : ℕ
  coords : Key
  lod : ℕ
  deriving DecidableEq, Repr

/-- A queued callback closure.  `updateCB` captures the chunk object (by
identity), the cell key and the computed LOD; the two `params…` forms come
from `onParamsChange`.  There is no remove form: removal is never queued. -/
inductive CB where
  | createCB (k w : ℤ) (lod : ℕ)
  | updateCB (cid : ℕ) (key : Key) (lod : ℕ)
  | paramsLodCB (cid : ℕ) (lod : ℕ)
  | paramsRebuildCB (cid : ℕ) (key : Key)
  deriving DecidableEq, Repr

/-- A pending-op pool element, with the JavaScript field layout: create ops
carry their cell in `key`, update ops carry it in `id`, and the dedup lookup
`findIndex(el => el.id === key)` only ever inspects `id`. -/
structure PoolEl where
  id : Option Key := none
  key : Option Key := none
  coords : Key
  lod : Option ℕ := none
  callback : CB
  deriving DecidableEq, Repr

/-- Observable interface calls of one tick, in call order.
`removePhysics`/`addPhysics` are the `physicsWorld.removeHeightfield` /
`addHeightfieldFromChunk` calls, `disposeChunk` is `chunk.dispose()`, and
`dropKey` is the store update `this.chunks[key] = undefined`. -/
inductive Ev where
  | removePhysics (key : Key) (cid : ℕ)
  | addPhysics (key : Key) (cid : ℕ)
  | disposeChunk (cid : ℕ) (key : Key)
  | dropKey (key : Key)
  deriving DecidableEq, Repr

/-- Constructor-time configuration: the tile size, `params.LOD` (used by the
`LOD || this.params.LOD` fallback), the device class (`window.innerWidth`),
and whether a physics world was attached. -/
structure Cfg where
  chunkSize : ℚ
  paramsLOD : ℕ
  isMobile : Bool
  hasPhysics : Bool
  deriving DecidableEq, Repr

/-- `maxDistance = isMobile ? 4 : 5`. -/
def Cfg.maxDistance (c : Cfg) : ℤ := if c.isMobile then 4 else 5

/-- The per-tick op budget `isMobile ? 1 : 2`. -/
def Cfg.budget (c : Cfg) : ℕ := if c.isMobile then 1 else 2

/-- The mutable state of a `ChunkManager`.  `chunks` is the keyed store
(`this.chunks[key] = undefined` is modelled by dropping the entry — every
read in the source treats the two alike); `activePhysics` is the
`activePhysicsChunks` set; `physicsBodies` is the multiset of chunk
identities with a live collision approximation (modelled from the spec,
§4.5, since `src/PhysicsWorld.js` is not among the sources: an
approximation is added per chunk and removed per chunk). -/
structure MState where
  chunks : List (Key × ChunkObj)
  chunkKeys : List Key
  lastChunkVisited : Option Key
  pool : List PoolEl
  activePhysics : List Key
  physicsBodies : List ℕ
  nextId : ℕ
  deriving DecidableEq, Repr

/-- `this.chunks[key]` — first (unique) matching entry. -/
def storeGet : List (Key × ChunkObj) → Key → Option ChunkObj
  | [], _ => none
  | (k', c) :: rest, k => if k' = k then some c else storeGet rest k

/-- `this.chunks[key] = undefined`. -/
def storeRemove : List (Key × ChunkObj) → Key → List (Key × ChunkObj)
  | [], _ => []
  | (k', c) :: rest, k =>
      if k' = k then storeRemove rest k else (k', c) :: storeRemove rest k

/-- `Set.add` (no-op when already present). -/
def setAdd (l : List Key) (k : Key) : List Key := if k ∈ l then l else l ++ [k]

/-- `Set.delete`. -/
def setDel : List Key → Key → List Key
  | [], _ => []
  | k' :: rest, k => if k' = k then setDel rest k else k' :: setDel rest k

/-- Remove one occurrence (a physics world holds one body per chunk). -/
def eraseOne : List ℕ → ℕ → List ℕ
  | [], _ => []
  | x :: rest, n => if x = n then rest else x :: eraseOne rest n

/-- Modelled from the spec: `PhysicsWorld.addHeightfieldFromChunk` adds one
static collision approximation for the given chunk (§4.5: "Exactly one
approximation per qualifying resident Chunk"). -/
def physicsAdd (bodies : List ℕ) (cid : ℕ) : List ℕ := bodies ++ [cid]

/-- Modelled from the spec: `PhysicsWorld.removeHeightfield` removes the
given chunk's approximation (§4.5: "removing a Chunk removes its
approximation first"). -/
def physicsRemove (bodies : List ℕ) (cid : ℕ) : List ℕ := eraseOne bodies cid

/-- `Math.floor(x / y)` on rationals, computed on numerators and
denominators so concrete traces kernel-reduce; equal to `⌊x / y⌋` for a
positive divisor (`floorDiv_eq_floor`). -/
def floorDiv (x y : ℚ) : ℤ :=
  Int.fdiv (x.num * (y.den : ℤ)) ((x.den : ℤ) * y.num)

/-- `getCoordsByTarget()`: `Math.floor(coordinate / chunkSize)` per
horizontal axis (positions are rationals; the vertical component is unused). -/
def getCoordsByTarget (c : Cfg) (pos : ℚ × ℚ) : Key :=
  (floorDiv pos.1 c.chunkSize, floorDiv pos.2 c.chunkSize)

/-- `ChunkManager.createChunk(i, j, LOD)`.  `LOD = LOD || this.params.LOD`
makes a zero argument fall back to `params.LOD`; when a physics world is
present and `LOD <= 1 || |(i, j)| <= 2`, a heightfield is added and the key
marked active. -/
def createChunk (c : Cfg) (s : MState) (i j : ℤ) (lod : ℕ) : MState × List Ev :=
  let L := if lod = 0 then c.paramsLOD else lod
  if storeGet s.chunks (i, j) = none then
    let ch : ChunkObj := ⟨s.nextId, (i, j), L⟩
    let s1 : MState := { s with
      chunks := s.chunks ++ [((i, j), ch)]
      chunkKeys := s.chunkKeys ++ [(i, j)]
      nextId := s.nextId + 1 }
    if c.hasPhysics ∧ (L ≤ 1 ∨ i ^ 2 + j ^ 2 ≤ 4) then
      ({ s1 with physicsBodies := physicsAdd s1.physicsBodies ch.cid
                 activePhysics := setAdd s1.activePhysics (i, j) },
       [Ev.addPhysics (i, j) ch.cid])
    else (s1, [])
  else (s, [])

/-- `ChunkManager.disposeChunk(chunk, key)`: guarded by the chunk's own
coords (distance ≤ 1 from origin returns early); otherwise `chunk.dispose()`,
clear the store slot, filter `chunkKeys`. -/
def disposeChunkOp (s : MState) (ch : ChunkObj) (key : Key) : MState × List Ev :=
  if ch.coords.1 ^ 2 + ch.coords.2 ^ 2 ≤ 1 then (s, [])
  else
    ({ s with chunks := storeRemove s.chunks key
              chunkKeys := s.chunkKeys.filter (fun k => k ≠ key) },
     [Ev.disposeChunk ch.cid key, Ev.dropKey key])

/-- `chunk.updateLOD(LOD)` as visible to the manager: the object with this
identity (wherever stored) now carries the new LOD.  (`updateLOD` returns
early when the LOD is unchanged; writing an equal LOD is the same state.) -/
def updateLodById (l : List (Key × ChunkObj)) (cid : ℕ) (lod : ℕ) :
    List (Key × ChunkObj) :=
  l.map (fun e => if e.2.cid = cid then (e.1, { e.2 with lod := lod }) else e)

/-- Run one popped callback (`callback()`). -/
def execCB (c : Cfg) (s : MState) : CB → MState × List Ev
  | .createCB k w lod => createChunk c s k w lod
  | .updateCB cid key lod =>
      let s1 : MState := { s with chunks := updateLodById s.chunks cid lod }
      if lod ≤ 1 ∧ key ∉ s1.activePhysics ∧ c.hasPhysics then
        ({ s1 with physicsBodies := physicsAdd s1.physicsBodies cid
                   activePhysics := setAdd s1.activePhysics key },
         [Ev.addPhysics key cid])
      else (s1, [])
  | .paramsLodCB cid lod =>
      ({ s with chunks := updateLodById s.chunks cid lod }, [])
  | .paramsRebuildCB cid key =>
      if key ∈ s.activePhysics ∧ c.hasPhysics then
        ({ s with physicsBodies := physicsAdd (physicsRemove s.physicsBodies cid) cid },
         [Ev.removePhysics key cid, Ev.addPhysics key cid])
      else (s, [])

/-- The stationary branch of `updateChunks`: pop up to the device budget of
ops off the end of the pool; `count` mirrors the loop counter and the loop
breaks after the first op when that op's `LOD <= 1` (an absent `LOD`
compares false, and an empty pool skips the callback but still counts). -/
def runPops (c : Cfg) : ℕ → ℕ → MState → MState × List Ev
  | 0, _, s => (s, [])
  | fuel + 1, count, s =>
      match s.pool.getLast? with
      | none => runPops c fuel (count + 1) { s with pool := s.pool.dropLast }
      | some el =>
          let s0 : MState := { s with pool := s.pool.dropLast }
          let r1 := execCB c s0 el.callback
          if (match el.lod with | some L => decide (L ≤ 1) | none => false) && decide (count + 1 = 1) then
            r1
          else
            let r2 := runPops c fuel (count + 1) r1.1
            (r2.1, r1.2 ++ r2.2)

/-- The sort comparator of `updateChunks` (`(a, b) => bL - aL`): `a` sorts
no later than `b` when `a` is at least as far from the target cell;
distances compare via their squares. -/
def farther (i j : ℤ) (a b : PoolEl) : Bool :=
  decide ((b.coords.1 - i) ^ 2 + (b.coords.2 - j) ^ 2
    ≤ (a.coords.1 - i) ^ 2 + (a.coords.2 - j) ^ 2)

/-- Merge two runs, taking from the left run on ties (stability). -/
def mergeRuns (le : PoolEl → PoolEl → Bool) : ℕ → List PoolEl → List PoolEl → List PoolEl
  | 0, l1, l2 => l1 ++ l2
  | _ + 1, [], l2 => l2
  | _ + 1, a :: l1, [] => a :: l1
  | fuel + 1, a :: l1, b :: l2 =>
      if le a b then a :: mergeRuns le fuel l1 (b :: l2)
      else b :: mergeRuns le fuel (a :: l1) l2

/-- Stable merge sort with explicit fuel.  `Array.prototype.sort` is stable
and the comparator is a total preorder, so any stable sort yields the same
array as the source; the fuel (the list length) always suffices on the
traces evaluated here. -/
def msort (le : PoolEl → PoolEl → Bool) : ℕ → List PoolEl → List PoolEl
  | 0, l => l
  | fuel + 1, l =>
      if l.length ≤ 1 then l
      else
        mergeRuns le l.length
          (msort le fuel (l.take (l.length / 2)))
          (msort le fuel (l.drop (l.length / 2)))

/-- `isOutOfRange(k, w, [i, j])`: farther than `maxDistance` from the player
and farther than `maxDistance - 1` from the mountain center. -/
def isOutOfRange (c : Cfg) (k w i j : ℤ) : Bool :=
  decide (c.maxDistance ^ 2 < (k - i) ^ 2 + (w - j) ^ 2) &&
    decide ((c.maxDistance - 1) ^ 2 < k ^ 2 + w ^ 2)

/-- Replace the first pool entry whose `id` equals the cell key, else push
(`findIndex(el => el.id === key)`; `pool[indexOf] = el` / `pool.push(el)`). -/
def poolUpsert (pool : List PoolEl) (key : Key) (el : PoolEl) : List PoolEl :=
  match pool.findIdx? (fun e => e.id == some key) with
  | some n => pool.set n el
  | none => pool ++ [el]

/-- The body of the rescan double loop for one cell `(k, w)`. -/
def processCell (c : Cfg) (i j : ℤ) (s : MState) (cell : Key) : MState × List Ev :=
  if isOutOfRange c cell.1 cell.2 i j then
    match storeGet s.chunks cell with
    | some ch =>
        if cell.1 ^ 2 + cell.2 ^ 2 ≤ 4 then (s, [])
        else
          let r1 :=
            if cell ∈ s.activePhysics ∧ c.hasPhysics then
              (({ s with physicsBodies := physicsRemove s.physicsBodies ch.cid
                         activePhysics := setDel s.activePhysics cell } : MState),
               [Ev.removePhysics cell ch.cid])
            else (s, [])
          let r2 := disposeChunkOp r1.1 ch cell
          (r2.1, r1.2 ++ r2.2)
    | none => (s, [])
  else
    let lod := getLODbyCoords cell.1 cell.2 i j
    let el : PoolEl :=
      match storeGet s.chunks cell with
      | none => { id := none, key := some cell, coords := cell, lod := some lod
                  callback := .createCB cell.1 cell.2 lod }
      | some ch => { id := some cell, key := none, coords := cell, lod := some lod
                     callback := .updateCB ch.cid cell lod }
    ({ s with pool := poolUpsert s.pool cell el }, [])

/-- The rescan window in source iteration order: `k` from
`i - maxDistance + 1` to `i + maxDistance + 1`, inner `w` likewise. -/
def rescanCells (c : Cfg) (i j : ℤ) : List Key :=
  (List.range (2 * c.maxDistance.toNat + 1)).flatMap fun a =>
    (List.range (2 * c.maxDistance.toNat + 1)).map fun b =>
      (i - c.maxDistance + 1 + a, j - c.maxDistance + 1 + b)

/-- One fold step of the rescan, accumulating the event trace. -/
def rescanStep (c : Cfg) (i j : ℤ) (acc : MState × List Ev) (cell : Key) :
    MState × List Ev :=
  let r := processCell c i j acc.1 cell
  (r.1, acc.2 ++ r.2)

/-- One scheduler tick: `updateChunks()` with the target at `pos`.  The pool
is sorted first; a tick with an unchanged target cell pops from the budget,
a tick with a changed target cell records it and rescans the window. -/
def tick (c : Cfg) (s : MState) (pos : ℚ × ℚ) : MState × List Ev :=
  let ij := getCoordsByTarget c pos
  let s0 : MState := { s with pool := msort (farther ij.1 ij.2) s.pool.length s.pool }
  if s0.lastChunkVisited = some ij then
    runPops c c.budget 0 s0
  else
    let s1 : MState := { s0 with lastChunkVisited := some ij }
    (rescanCells c ij.1 ij.2).foldl (rescanStep c ij.1 ij.2) (s1, [])

/-- The state after one tick. -/
def tickS (c : Cfg) (s : MState) (pos : ℚ × ℚ) : MState := (tick c s pos).1

/-- The state after a sequence of ticks. -/
def runTicks (c : Cfg) (s : MState) (ps : List (ℚ × ℚ)) : MState :=
  ps.foldl (tickS c) s

/-- The empty pre-constructor state. -/
def emptyState : MState := ⟨[], [], none, [], [], [], 0⟩

/-- The 8 neighbours created by `init()`, in loop order. -/
def ringCells : List Key :=
  [(-1, -1), (-1, 0), (-1, 1), (0, -1), (0, 1), (1, -1), (1, 0), (1, 1)]

/-- The constructor: `init()` runs one `updateChunks()`, then directly
creates the center chunk and its ring at argument LOD 0. -/
def initState (c : Cfg) (pos : ℚ × ℚ) : MState :=
  let s1 := tickS c emptyState pos
  let s2 := (createChunk c s1 0 0 0).1
  ringCells.foldl (fun s kv => (createChunk c s kv.1 kv.2 0).1) s2

/-- The C1 invariant exactly as claimed: every resident chunk with
`LOD ≤ 1` or within distance 2 of the origin has exactly one live physics
approximation, and every other resident chunk has none. -/
def physicsInvariant (s : MState) : Bool :=
  s.chunks.all fun e =>
    if e.2.lod ≤ 1 ∨ e.1.1 ^ 2 + e.1.2 ^ 2 ≤ 4
    then s.physicsBodies.count e.2.cid == 1
    else s.physicsBodies.count e.2.cid == 0

/-- The number of pending pool ops for a cell key (create ops carry it in
`key`, update ops in `id`). -/
def opsForKey (pool : List PoolEl) (k : Key) : ℕ :=
  pool.countP (fun e => e.id == some k || e.key == some k)

/-- `ChunkManager.onParamsChange(LOD)`: one op per resident chunk is pushed
(never replaced), carrying neither `id` nor `key` and `coords = [0, 0]`.
JavaScript truthiness: `if (LOD)` is false both for `undefined` and for `0`,
so only a nonzero argument takes the update-LOD branch. -/
def onParamsChange (c : Cfg) (s : MState) (lodOpt : Option ℕ) : MState :=
  { s with pool := s.pool ++ s.chunks.map (fun e =>
      match lodOpt with
      | some lod =>
          if lod = 0 then
            { coords := (0, 0), callback := .paramsRebuildCB e.2.cid e.1 }
          else
            { coords := (0, 0), callback := .paramsLodCB e.2.cid lod }
      | none => { coords := (0, 0), callback := .paramsRebuildCB e.2.cid e.1 }) }

/-- Every resident chunk's `coords` field equals its store key (true of
every state the manager can reach, since `createChunk` is the only writer). -/
def CoordsConsistent (s : MState) : Prop :=
  ∀ (key : Key) (ch : ChunkObj), storeGet s.chunks key = some ch → ch.coords = key

/-- The chunk object with identity `cid` is resident under `key`. -/
def Resident (key : Key) (cid : ℕ) (s : MState) : Prop :=
  ∃ ch : ChunkObj, storeGet s.chunks key = some ch ∧ ch.cid = cid

/-! ### Concrete instances for counterexamples and witnesses -/

/-- A mobile-device manager with tile size 1, `params.LOD = 0` and a physics
world attached. -/
def cexCfg : Cfg := ⟨1, 0, true, true⟩

/-- The state right after the constructor with the target at the origin. -/
def cexStart : MState := initState cexCfg (0, 0)

/-- Target course: the target steps to cell `(2,0)` (rescan), holds it for
three ticks (the queue pops create chunk `(3,0)` at LOD 1, attaching
physics), steps to `(5,0)` (rescan enqueues an update op raising chunk
`(3,0)` to LOD 2), then holds while the queue drains to that op. -/
def cexTrace : List (ℚ × ℚ) :=
  [(2, 0), (2, 0), (2, 0), (2, 0), (5, 0)] ++ List.replicate 21 (5, 0)

/-- A protected chunk (at the origin) for the C3 witness. -/
def protoChunk : ChunkObj := ⟨7, (0, 0), 3⟩

/-- A one-chunk state holding only the protected chunk. -/
def c3State : MState := ⟨[((0, 0), protoChunk)], [(0, 0)], none, [], [], [], 8⟩

/-- A physics-carrying chunk at `(5, 5)` for the C4 witness. -/
def c4Chunk : ChunkObj := ⟨7, (5, 5), 0⟩

/-- A state holding only that chunk, with its live approximation. -/
def c4State : MState :=
  ⟨[((5, 5), c4Chunk)], [(5, 5)], none, [], [(5, 5)], [7], 8⟩

/-- A pending update op for cell `(3, 0)` (carries the cell in `id`). -/
def demoUpdateEl : PoolEl :=
  { id := some (3, 0), coords := (3, 0), lod := some 2,
    callback := .updateCB 5 (3, 0) 2 }

/-- A later update op for the same cell. -/
def demoUpdateEl2 : PoolEl :=
  { id := some (3, 0), coords := (3, 0), lod := some 0,
    callback := .updateCB 5 (3, 0) 0 }

/-- A one-op pool holding the first update op. -/
def demoPool : List PoolEl := [demoUpdateEl]

/-! ## Height generator lemmas -/

/-- Folding the octave loop starting from a defined accumulator stays defined
as long as every accessed generator exists. -/
theorem octaveFold_isSome (ns : List Noise) (p : HP) (x z : ℝ) :
    ∀ n : ℕ, n ≤ ns.length → ∀ h : ℝ,
      ∃ h', (List.range n).foldl (octaveStep ns p x z) (some h) = some h' := by
  intro n
  induction n with
  | zero => intro _ h; exact ⟨h, rfl⟩
  | succ n ih =>
      intro hle h
      obtain ⟨h', hh'⟩ := ih (Nat.le_of_succ_le hle) h
      obtain ⟨f, hf⟩ : ∃ f, ns[n]? = some f := by
        have hn : n < ns.length := hle
        exact ⟨ns[n], List.getElem?_eq_some.2 ⟨hn, rfl⟩⟩
      have hstep : (List.range (n + 1)).foldl (octaveStep ns p x z) (some h) =
          octaveStep ns p x z (some h') n := by
        rw [List.range_succ, List.foldl_append, hh']; rfl
      rw [hstep]
      simp only [octaveStep, Option.some_bind, hf, Option.map_some']
      exact ⟨_, rfl⟩

/-- The octave loop is defined whenever the table is long enough. -/
theorem octaveSum_isSome (ns : List Noise) (p : HP) (x z : ℝ)
    (hlen : min p.octaves 3 ≤ ns.length) :
    ∃ h0, octaveSum ns p x z = some h0 :=
  octaveFold_isSome ns p x z _ hlen 0

/-- With the all-zero table, each octave contributes nothing. -/
theorem octaveSum_replicate_zero (k : ℕ) (p : HP) (x z : ℝ)
    (hlen : min p.octaves 3 ≤ k) :
    octaveSum (List.replicate k zeroNoise) p x z = some 0 := by
  unfold octaveSum
  suffices H : ∀ n : ℕ, n ≤ k → ∀ h : ℝ,
      (List.range n).foldl (octaveStep (List.replicate k zeroNoise) p x z) (some h) = some h by
    exact H _ hlen 0
  intro n
  induction n with
  | zero => intro _ h; rfl
  | succ n ih =>
      intro hle h
      rw [List.range_succ, List.foldl_append, ih (Nat.le_of_succ_le hle) h]
      have hget : (List.replicate k zeroNoise)[n]? = some zeroNoise := by
        rw [List.getElem?_replicate]
        exact if_pos (Nat.lt_of_succ_le hle)
      simp only [List.foldl_cons, List.foldl_nil, octaveStep, Option.some_bind, hget,
        Option.map_some', zeroNoise, zero_mul, add_zero]

/-! ## C8 — the height function never returns a negative value -/

/-- C8: for every input `(x, z)`, every noise table and every parameter set
under which `getHeight` is defined (i.e. evaluation does not throw), the
returned height is nonnegative (`return Math.max(h, 0)`), and the null-table
default is nonnegative too. -/
theorem getHeight_nonneg (x z : ℝ) (noises : Option (List Noise)) (p : HP) (v : ℝ)
    (h : getHeight x z noises p = some v) : 0 ≤ v := by
  cases noises with
  | none =>
      simp only [getHeight, Option.some.injEq] at h
      subst h; norm_num
  | some ns =>
      simp only [getHeight] at h
      rw [Option.bind_eq_some] at h
      obtain ⟨h0, -, h⟩ := h
      rw [Option.bind_eq_some] at h
      obtain ⟨h3, -, h⟩ := h
      rw [Option.map_eq_some'] at h
      obtain ⟨f1, -, h⟩ := h
      subst h
      exact le_max_right _ _

/-- C8 witness: a concrete successful evaluation has a nonnegative result. -/
theorem getHeight_nonneg_witness : 0 ≤ (30:ℝ) :=
  getHeight_nonneg 0 0 none specParams 30 rfl

/-! ## C9 — missing noise table returns the safe default height 30 -/

/-- C9: when the noise table is missing (null/undefined) the height function
returns the fixed default `30`, a nonnegative constant, instead of failing
(`if (!noises) return 30`). -/
theorem getHeight_missing_table (x z : ℝ) (p : HP) :
    getHeight x z none p = some 30 ∧ (0:ℝ) ≤ 30 :=
  ⟨rfl, by norm_num⟩

/-! ## C10 — the facet step always reads `noises[1]` -/

/-- C10: evaluation with a single-generator table always fails (the facet
step reads `noises[1]` unconditionally), and conversely any successful
evaluation with a non-null table needs at least two generators; the
null-table guard does not cover this case. -/
theorem getHeight_needs_two_generators :
    (∀ (x z : ℝ) (p : HP) (f : Noise), getHeight x z (some [f]) p = none) ∧
    (∀ (x z : ℝ) (p : HP) (ns : List Noise) (v : ℝ),
      getHeight x z (some ns) p = some v → 2 ≤ ns.length) := by
  constructor
  · intro x z p f
    have h1 : ([f] : List Noise)[1]? = none := rfl
    cases ho : octaveSum [f] p x z with
    | none => simp [getHeight, ho]
    | some h0 =>
        simp only [getHeight, ho, Option.some_bind, h1, Option.map_none']
        split <;> simp
  · intro x z p ns v h
    simp only [getHeight] at h
    rw [Option.bind_eq_some] at h
    obtain ⟨h0, -, h⟩ := h
    rw [Option.bind_eq_some] at h
    obtain ⟨h3, -, h⟩ := h
    rw [Option.map_eq_some'] at h
    obtain ⟨f1, hf1, -⟩ := h
    rw [List.getElem?_eq_some] at hf1
    exact hf1.1

/-- C10 witness: with one generator evaluation fails at a concrete input,
and a concrete successful two-generator evaluation indeed has length ≥ 2. -/
theorem getHeight_needs_two_generators_witness :
    getHeight 0 0 (some [zeroNoise]) specParams = none ∧
    2 ≤ ([zeroNoise, zeroNoise] : List Noise).length :=
  ⟨getHeight_needs_two_generators.1 0 0 specParams zeroNoise,
   getHeight_needs_two_generators.2 0 0
     { specParams with octaves := 2 } [zeroNoise, zeroNoise] 0 (by
        have : octaveSum [zeroNoise, zeroNoise] { specParams with octaves := 2 } 0 0
            = some 0 := by
          have := octaveSum_replicate_zero 2 { specParams with octaves := 2 } 0 0
            (by norm_num [specParams])
          simpa using this
        simp only [getHeight, this, Option.some_bind]
        norm_num [pathStep, heightPathMask, heightPathDist, zeroNoise])⟩

/-! ## C5 — the path-carving step -/

/-- C5 counterexample: on the path centerline (here `(x, z) = (1, 1)`, which
lies on the 45° line) the carving factor `min(1, pathDist * 8)` is `0`, so the
height is scaled all the way to `0`, strictly below 80% of its pre-path
value `1`. -/
theorem pathStep_floor_counterexample :
    0 ≤ (1:ℝ) ∧ pathStep 1 1 1 < 0.8 * 1 := by
  norm_num [pathStep, heightPathMask, heightPathDist]

/-- C5 amended: the path-carving step multiplies the pre-path height by
`min(1, pathDist * 8) ∈ [0, 1]`; it never increases the height and never
makes it negative, but it has no 80% floor — on the centerline it reaches 0. -/
theorem pathStep_bounds (x z h : ℝ) (hh : 0 ≤ h) :
    0 ≤ pathStep x z h ∧ pathStep x z h ≤ h := by
  have hd : 0 ≤ heightPathDist x z := by
    have := abs_nonneg (x * 0.7071 - z * 0.7071)
    unfold heightPathDist
    nlinarith
  have hm0 : 0 ≤ heightPathMask x z :=
    le_min zero_le_one (by nlinarith)
  have hm1 : heightPathMask x z ≤ 1 := min_le_left _ _
  exact ⟨mul_nonneg hh hm0, mul_le_of_le_one_right hh hm1⟩

/-- C5 amended witness: at a concrete off-path point the carved height stays
within `[0, h]`. -/
theorem pathStep_bounds_witness :
    0 ≤ (2:ℝ) ∧ (0 ≤ pathStep 0 3 2 ∧ pathStep 0 3 2 ≤ 2) :=
  ⟨by norm_num, pathStep_bounds 0 3 2 (by norm_num)⟩

/-! ## C6 — the end-to-end sample points sit on the carved path -/

/-- The zero table is valid: every generator returns values in `[-1, 1]`. -/
theorem Z6_valid : ValidNoise Z6 := by
  intro f hf a b
  rw [List.eq_of_mem_replicate hf]
  simp [zeroNoise]

/-- With the all-zero table, `getHeight` returns exactly `0` everywhere. -/
theorem getHeight_zero_table (x z : ℝ) :
    getHeight x z (some Z6) specParams = some 0 := by
  have hsum := octaveSum_replicate_zero 6 specParams x z (by norm_num [specParams])
  have hg0 : (Z6 : List Noise)[0]? = some zeroNoise := rfl
  have hg1 : (Z6 : List Noise)[1]? = some zeroNoise := rfl
  simp only [Z6] at hsum hg0 hg1
  simp only [getHeight, Z6, hsum, Option.some_bind]
  split <;> simp [pathStep, zeroNoise, hg0, hg1]

/-- Any point with `x = z` lies on the 45° path centerline: with a long
enough valid table the height there is defined and bounded by the facet
term alone, i.e. it lies in `[0, 1.5]`. -/
theorem getHeight_on_centerline (x z : ℝ) (ns : List Noise) (p : HP)
    (hd : heightPathDist x z = 0) (hlen : min p.octaves 3 ≤ ns.length)
    (h2 : 2 ≤ ns.length) (hv : ValidNoise ns) :
    ∃ v, getHeight x z (some ns) p = some v ∧ 0 ≤ v ∧ v ≤ 1.5 := by
  obtain ⟨h0, hsum⟩ := octaveSum_isSome ns p x z hlen
  have hmask : heightPathMask x z = 0 := by
    simp [heightPathMask, hd]
  have hg0 : ns[0]? = some ns[0] :=
    List.getElem?_eq_some.2 ⟨by omega, rfl⟩
  have hg1 : ns[1]? = some ns[1] :=
    List.getElem?_eq_some.2 ⟨by omega, rfl⟩
  simp only [getHeight, hsum, Option.some_bind, hmask, pathStep, mul_zero,
    if_pos (by norm_num : (0:ℝ) < 0.5), hg0, Option.map_some', Option.some_bind,
    hg1, zero_add, add_zero]
  refine ⟨_, rfl, le_max_right _ _, ?_⟩
  have hb := hv ns[1] (List.getElem_mem (by omega))
    ((⌊x / 12⌋ : ℤ) * 12 * 0.01) ((⌊z / 12⌋ : ℤ) * 12 * 0.01)
  rw [abs_le] at hb
  have : ns[1] ((⌊x / 12⌋ : ℤ) * 12 * 0.01) ((⌊z / 12⌋ : ℤ) * 12 * 0.01) * 1.5 ≤ 1.5 := by
    nlinarith [hb.2]
  exact max_le this (by norm_num)

/-- C6 counterexample: with the valid all-zero table and the spec's
parameter set, `height(0,0) = 0`, not `> 30`, and `height(500,500) = 0` is
not `< height(0,0)` — both sample points lie on the carved path centerline. -/
theorem spec_end_to_end_counterexample :
    ValidNoise Z6 ∧ Z6.length = 6 ∧
    getHeight 0 0 (some Z6) specParams = some 0 ∧
    getHeight 500 500 (some Z6) specParams = some 0 ∧
    ¬ (30 < (0:ℝ)) ∧ ¬ ((0:ℝ) < 0) :=
  ⟨Z6_valid, rfl, getHeight_zero_table 0 0, getHeight_zero_table 500 500,
   by norm_num, by norm_num⟩

/-- C6 amended: with the spec's parameters and any valid 6-generator table,
both `height(0,0)` and `height(500,500)` are defined and lie in `[0, 1.5]`
(both points are on the carved path centerline, which zeroes everything but
the facet term), so neither `height(0,0) > 30` nor
`height(500,500) < height(0,0)` holds in general. -/
theorem spec_end_to_end_amended (ns : List Noise) (hlen : ns.length = 6)
    (hv : ValidNoise ns) :
    ∃ v w, getHeight 0 0 (some ns) specParams = some v ∧
      getHeight 500 500 (some ns) specParams = some w ∧
      0 ≤ v ∧ v ≤ 1.5 ∧ 0 ≤ w ∧ w ≤ 1.5 := by
  obtain ⟨v, hv0, hvl, hvu⟩ := getHeight_on_centerline 0 0 ns specParams
    (by norm_num [heightPathDist]) (by rw [hlen]; norm_num [specParams])
    (by omega) hv
  obtain ⟨w, hw0, hwl, hwu⟩ := getHeight_on_centerline 500 500 ns specParams
    (by norm_num [heightPathDist]) (by rw [hlen]; norm_num [specParams])
    (by omega) hv
  exact ⟨v, w, hv0, hw0, hvl, hvu, hwl, hwu⟩

/-- C6 amended witness: the bounds hold at the concrete all-zero table. -/
theorem spec_end_to_end_amended_witness :
    ∃ v w, getHeight 0 0 (some Z6) specParams = some v ∧
      getHeight 500 500 (some Z6) specParams = some w ∧
      0 ≤ v ∧ v ≤ 1.5 ∧ 0 ≤ w ∧ w ≤ 1.5 :=
  spec_end_to_end_amended Z6 rfl Z6_valid

/-! ## C7 — the LOD policy equals the spec formula and is monotone -/

/-- Correctness of the double-squaring decision procedure. -/
theorem le63_27_iff (m a b : ℕ) :
    le63_27 m a b = true ↔ (m : ℝ) ≤ 63 * Real.sqrt a + 27 * Real.sqrt b := by
  have ha : (0:ℝ) ≤ (a:ℝ) := Nat.cast_nonneg a
  have hb : (0:ℝ) ≤ (b:ℝ) := Nat.cast_nonneg b
  have hsa : Real.sqrt (a:ℝ) ^ 2 = (a:ℝ) := Real.sq_sqrt ha
  have hsb : Real.sqrt (b:ℝ) ^ 2 = (b:ℝ) := Real.sq_sqrt hb
  have hP0 : (0:ℝ) ≤ (a:ℝ) * (b:ℝ) := mul_nonneg ha hb
  have hsp : Real.sqrt ((a:ℝ) * (b:ℝ)) ^ 2 = (a:ℝ) * (b:ℝ) := Real.sq_sqrt hP0
  have hPs : (0:ℝ) ≤ Real.sqrt ((a:ℝ) * (b:ℝ)) := Real.sqrt_nonneg _
  have hS : (0:ℝ) ≤ 63 * Real.sqrt a + 27 * Real.sqrt b := by positivity
  have hsq : ((m:ℝ) ≤ 63 * Real.sqrt a + 27 * Real.sqrt b) ↔
      ((m:ℝ) ^ 2 ≤ (63 * Real.sqrt a + 27 * Real.sqrt b) ^ 2) :=
    ⟨fun h => pow_le_pow_left₀ (Nat.cast_nonneg m) h 2,
     fun h => le_of_pow_le_pow_left₀ two_ne_zero hS h⟩
  have hexp : (63 * Real.sqrt a + 27 * Real.sqrt b) ^ 2
      = 3969 * (a:ℝ) + 729 * (b:ℝ) + 3402 * Real.sqrt ((a:ℝ) * (b:ℝ)) := by
    have hmul : Real.sqrt (a:ℝ) * Real.sqrt (b:ℝ) = Real.sqrt ((a:ℝ) * (b:ℝ)) :=
      (Real.sqrt_mul ha _).symm
    calc (63 * Real.sqrt a + 27 * Real.sqrt b) ^ 2
        = 3969 * Real.sqrt (a:ℝ) ^ 2 + 729 * Real.sqrt (b:ℝ) ^ 2
            + 3402 * (Real.sqrt (a:ℝ) * Real.sqrt (b:ℝ)) := by ring
      _ = _ := by rw [hsa, hsb, hmul]
  rw [hsq, hexp]
  unfold le63_27
  rw [Bool.or_eq_true, decide_eq_true_eq, decide_eq_true_eq]
  by_cases hc : m ^ 2 ≤ 3969 * a + 729 * b
  · have hcr : ((m:ℝ)) ^ 2 ≤ 3969 * (a:ℝ) + 729 * (b:ℝ) := by exact_mod_cast hc
    exact ⟨fun _ => by nlinarith, fun _ => Or.inl hc⟩
  · have hclt : 3969 * a + 729 * b < m ^ 2 := Nat.lt_of_not_le hc
    have hcr : 3969 * (a:ℝ) + 729 * (b:ℝ) < ((m:ℝ)) ^ 2 := by exact_mod_cast hclt
    have hcast : ((m ^ 2 - (3969 * a + 729 * b) : ℕ) : ℝ)
        = (m:ℝ) ^ 2 - (3969 * (a:ℝ) + 729 * (b:ℝ)) := by
      rw [Nat.cast_sub (le_of_lt hclt)]
      push_cast
      ring
    have hrb : (3402 * Real.sqrt ((a:ℝ) * (b:ℝ))) ^ 2
        = 11573604 * ((a:ℝ) * (b:ℝ)) := by
      rw [mul_pow, hsp]; norm_num
    constructor
    · rintro (h | h)
      · exact absurd h hc
      · have hre : ((m:ℝ) ^ 2 - (3969 * (a:ℝ) + 729 * (b:ℝ))) ^ 2
            ≤ 11573604 * ((a:ℝ) * (b:ℝ)) := by
          have h'' : (((m ^ 2 - (3969 * a + 729 * b) : ℕ)) : ℝ) ^ 2
              ≤ 11573604 * ((a:ℝ) * (b:ℝ)) := by exact_mod_cast h
          rw [hcast] at h''
          exact h''
        have h3402 : (m:ℝ) ^ 2 - (3969 * (a:ℝ) + 729 * (b:ℝ))
            ≤ 3402 * Real.sqrt ((a:ℝ) * (b:ℝ)) := by
          refine le_of_pow_le_pow_left₀ two_ne_zero (by positivity) ?_
          rw [hrb]
          exact hre
        linarith
    · intro h
      right
      have ht : (m:ℝ) ^ 2 - (3969 * (a:ℝ) + 729 * (b:ℝ))
          ≤ 3402 * Real.sqrt ((a:ℝ) * (b:ℝ)) := by linarith
      have ht0 : (0:ℝ) ≤ (m:ℝ) ^ 2 - (3969 * (a:ℝ) + 729 * (b:ℝ)) := by linarith
      have hsq2 : ((m:ℝ) ^ 2 - (3969 * (a:ℝ) + 729 * (b:ℝ))) ^ 2
          ≤ 11573604 * ((a:ℝ) * (b:ℝ)) := by
        have := pow_le_pow_left₀ ht0 ht 2
        rw [hrb] at this
        exact this
      have hfin : (((m ^ 2 - (3969 * a + 729 * b) : ℕ)) : ℝ) ^ 2
          ≤ ((11573604 * (a * b) : ℕ) : ℝ) := by
        rw [hcast]
        push_cast
        exact hsq2
      exact_mod_cast hfin

/-- The computable `lodSq` computes the floor of the real LOD formula applied
to the square roots of its arguments. -/
theorem lodSq_eq_floor (a b : ℕ) :
    (lodSq a b : ℤ) = ⌊(63 * Real.sqrt a + 27 * Real.sqrt b) / 100⌋ := by
  have hfl0 : 0 ≤ ⌊(63 * Real.sqrt a + 27 * Real.sqrt b) / 100⌋ :=
    Int.floor_nonneg.2 (by positivity)
  have hNZ : (⌊(63 * Real.sqrt a + 27 * Real.sqrt b) / 100⌋ : ℤ)
      = ((⌊(63 * Real.sqrt a + 27 * Real.sqrt b) / 100⌋.toNat : ℕ) : ℤ) :=
    (Int.toNat_of_nonneg hfl0).symm
  have hNle : ((⌊(63 * Real.sqrt a + 27 * Real.sqrt b) / 100⌋.toNat : ℕ) : ℝ) * 100
      ≤ 63 * Real.sqrt a + 27 * Real.sqrt b := by
    have h1 : ((⌊(63 * Real.sqrt a + 27 * Real.sqrt b) / 100⌋ : ℤ) : ℝ)
        ≤ (63 * Real.sqrt a + 27 * Real.sqrt b) / 100 := Int.floor_le _
    rw [hNZ] at h1
    push_cast at h1
    linarith
  have hNgt : 63 * Real.sqrt a + 27 * Real.sqrt b
      < (((⌊(63 * Real.sqrt a + 27 * Real.sqrt b) / 100⌋.toNat : ℕ) : ℝ) + 1) * 100 := by
    have h1 : (63 * Real.sqrt a + 27 * Real.sqrt b) / 100
        < ((⌊(63 * Real.sqrt a + 27 * Real.sqrt b) / 100⌋ : ℤ) : ℝ) + 1 :=
      Int.lt_floor_add_one _
    rw [hNZ] at h1
    push_cast at h1
    linarith
  set N : ℕ := ⌊(63 * Real.sqrt a + 27 * Real.sqrt b) / 100⌋.toNat with hNdef
  have htrue : ∀ m : ℕ, m < N → le63_27 (100 * (m + 1)) a b = true := by
    intro m hm
    rw [le63_27_iff]
    have hm1 : (m:ℝ) + 1 ≤ (N:ℝ) := by exact_mod_cast hm
    push_cast
    nlinarith
  have hfalse : le63_27 (100 * (N + 1)) a b = false := by
    rw [Bool.eq_false_iff]
    intro hcontra
    rw [le63_27_iff] at hcontra
    push_cast at hcontra
    linarith
  have main : ∀ fuel m, m ≤ N → N ≤ m + fuel → lodFuel a b fuel m = N := by
    intro fuel
    induction fuel with
    | zero =>
        intro m h1 h2
        have hmn : m = N := by omega
        simp [lodFuel, hmn]
    | succ f ih =>
        intro m h1 h2
        by_cases hm : m < N
        · rw [lodFuel, if_pos (htrue m hm)]
          exact ih (m + 1) hm (by omega)
        · have hmn : m = N := by omega
          subst hmn
          rw [lodFuel, if_neg (by rw [hfalse]; exact Bool.false_ne_true)]
  have hsqa : Real.sqrt (a:ℝ) ≤ (a:ℝ) := by
    have h1 : (a:ℝ) ≤ (a:ℝ) ^ 2 := by exact_mod_cast Nat.le_self_pow two_ne_zero a
    calc Real.sqrt (a:ℝ) ≤ Real.sqrt ((a:ℝ) ^ 2) := Real.sqrt_le_sqrt h1
      _ = (a:ℝ) := Real.sqrt_sq (Nat.cast_nonneg a)
  have hsqb : Real.sqrt (b:ℝ) ≤ (b:ℝ) := by
    have h1 : (b:ℝ) ≤ (b:ℝ) ^ 2 := by exact_mod_cast Nat.le_self_pow two_ne_zero b
    calc Real.sqrt (b:ℝ) ≤ Real.sqrt ((b:ℝ) ^ 2) := Real.sqrt_le_sqrt h1
      _ = (b:ℝ) := Real.sqrt_sq (Nat.cast_nonneg b)
  have hbound : N ≤ 63 * a + 27 * b + 1 := by
    have h2 : (N:ℝ) * 100 ≤ 63 * (a:ℝ) + 27 * (b:ℝ) := by nlinarith
    have h3 : (N:ℝ) ≤ 63 * (a:ℝ) + 27 * (b:ℝ) + 1 := by
      nlinarith [Nat.cast_nonneg (α := ℝ) a, Nat.cast_nonneg (α := ℝ) b]
    have h4 : (N:ℝ) ≤ ((63 * a + 27 * b + 1 : ℕ) : ℝ) := by push_cast; linarith
    exact_mod_cast h4
  have hrun := main (63 * a + 27 * b + 1) 0 (Nat.zero_le N) (by omega)
  calc (lodSq a b : ℤ) = (N : ℤ) := by rw [lodSq, hrun]
    _ = _ := hNZ.symm

/-- C7: the desired LOD computed by `getLODbyCoords` equals
`⌊0.9 · (0.7 · dist(coord, target) + 0.3 · dist(coord, origin))⌋`, it is
always nonnegative, and the formula is monotone non-decreasing in each of
the two distances. -/
theorem getLODbyCoords_spec :
    (∀ k w i j : ℤ, (getLODbyCoords k w i j : ℤ)
        = desiredLOD (distR (k - i) (w - j)) (distR k w)) ∧
    (∀ k w i j : ℤ, 0 ≤ (getLODbyCoords k w i j : ℤ)) ∧
    (∀ d1 d1' d2 : ℝ, d1 ≤ d1' → desiredLOD d1 d2 ≤ desiredLOD d1' d2) ∧
    (∀ d1 d2 d2' : ℝ, d2 ≤ d2' → desiredLOD d1 d2 ≤ desiredLOD d1 d2') := by
  refine ⟨?_, ?_, ?_, ?_⟩
  · intro k w i j
    unfold getLODbyCoords desiredLOD distR
    rw [lodSq_eq_floor]
    have e1 : ((((k - i) ^ 2 + (w - j) ^ 2).toNat : ℕ) : ℝ)
        = ((k - i : ℤ) : ℝ) ^ 2 + ((w - j : ℤ) : ℝ) ^ 2 := by
      have h0 : (0:ℤ) ≤ (k - i) ^ 2 + (w - j) ^ 2 := by positivity
      have h1 : ((((k - i) ^ 2 + (w - j) ^ 2).toNat : ℤ) : ℝ)
          = (((k - i) ^ 2 + (w - j) ^ 2 : ℤ) : ℝ) := by
        rw [Int.toNat_of_nonneg h0]
      push_cast at h1 ⊢
      linarith
    have e2 : (((k ^ 2 + w ^ 2).toNat : ℕ) : ℝ) = (k : ℝ) ^ 2 + (w : ℝ) ^ 2 := by
      have h0 : (0:ℤ) ≤ k ^ 2 + w ^ 2 := by positivity
      have h1 : (((k ^ 2 + w ^ 2).toNat : ℤ) : ℝ) = ((k ^ 2 + w ^ 2 : ℤ) : ℝ) := by
        rw [Int.toNat_of_nonneg h0]
      push_cast at h1 ⊢
      linarith
    rw [e1, e2]
    congr 1
    ring
  · intro k w i j
    exact Int.ofNat_nonneg _
  · intro d1 d1' d2 h
    exact Int.floor_le_floor (by nlinarith)
  · intro d1 d2 d2' h
    exact Int.floor_le_floor (by nlinarith)

/-- C7 witness: the equality at a concrete coordinate and both
monotonicity statements discharged at concrete distances. -/
theorem getLODbyCoords_spec_witness :
    (getLODbyCoords 3 4 3 4 : ℤ) = desiredLOD (distR 0 0) (distR 3 4) ∧
    desiredLOD 0 5 ≤ desiredLOD 1 5 ∧
    desiredLOD 2 0 ≤ desiredLOD 2 3 :=
  ⟨getLODbyCoords_spec.1 3 4 3 4,
   getLODbyCoords_spec.2.2.1 0 1 5 (by norm_num),
   getLODbyCoords_spec.2.2.2 2 0 3 (by norm_num)⟩

/-! ## Scheduler embedding: basic lemmas -/

/-- `floorDiv` is the mathematical floor of the rational division (for the
positive tile sizes the manager is constructed with). -/
theorem floorDiv_eq_floor (x y : ℚ) (hy : 0 < y) : floorDiv x y = ⌊x / y⌋ := by
  have hynum : 0 < y.num := Rat.num_pos.2 hy
  have hxden : (0:ℤ) < (x.den : ℤ) := Int.ofNat_pos.2 x.pos
  have hb : (0:ℤ) < (x.den : ℤ) * y.num := mul_pos hxden hynum
  have hxy : x / y = ((x.num * (y.den : ℤ) : ℤ) : ℚ) / (((x.den : ℤ) * y.num : ℤ) : ℚ) := by
    have hyd : ((y.den : ℚ)) ≠ 0 := by
      exact_mod_cast Nat.pos_iff_ne_zero.1 y.pos
    have hxd : ((x.den : ℚ)) ≠ 0 := by
      exact_mod_cast Nat.pos_iff_ne_zero.1 x.pos
    have hx' : (x.num : ℚ) = x * (x.den : ℚ) := (div_eq_iff hxd).1 (Rat.num_div_den x)
    have hy'' : (y.num : ℚ) = y * (y.den : ℚ) := (div_eq_iff hyd).1 (Rat.num_div_den y)
    have hyne : y ≠ 0 := ne_of_gt hy
    have hBne : (((x.den : ℤ) * y.num : ℤ) : ℚ) ≠ 0 := by
      exact_mod_cast ne_of_gt hb
    rw [div_eq_div_iff hyne hBne]
    push_cast
    rw [hx', hy'']
    ring
  have htn : (((((x.den : ℤ) * y.num).toNat : ℕ)) : ℚ) = (((x.den : ℤ) * y.num : ℤ) : ℚ) := by
    exact_mod_cast congrArg (Int.cast : ℤ → ℚ) (Int.toNat_of_nonneg hb.le)
  rw [hxy, ← htn]
  rw [Rat.floor_intCast_div_natCast]
  rw [floorDiv, Int.fdiv_eq_ediv _ hb.le]
  rw [Int.toNat_of_nonneg hb.le]

/-- `storeGet` of an extension keeps existing hits. -/
theorem storeGet_append_some {l : List (Key × ChunkObj)} {k : Key} {ch : ChunkObj}
    (h : storeGet l k = some ch) (l' : List (Key × ChunkObj)) :
    storeGet (l ++ l') k = some ch := by
  induction l with
  | nil => simp [storeGet] at h
  | cons e rest ih =>
      obtain ⟨k', c⟩ := e
      by_cases hk : k' = k
      · simp only [storeGet, List.cons_append, if_pos hk] at h ⊢
        exact h
      · simp only [storeGet, List.cons_append, if_neg hk] at h ⊢
        exact ih h

/-- Appending a fresh binding makes it visible. -/
theorem storeGet_append_fresh {l : List (Key × ChunkObj)} {k : Key}
    (h : storeGet l k = none) (ch : ChunkObj) :
    storeGet (l ++ [(k, ch)]) k = some ch := by
  induction l with
  | nil => simp [storeGet]
  | cons e rest ih =>
      obtain ⟨k', c⟩ := e
      by_cases hk : k' = k
      · simp only [storeGet, if_pos hk] at h
        exact absurd h (by simp)
      · simp only [storeGet, List.cons_append, if_neg hk] at h ⊢
        exact ih h

/-- Removing a key empties its slot. -/
theorem storeGet_storeRemove_self (l : List (Key × ChunkObj)) (k : Key) :
    storeGet (storeRemove l k) k = none := by
  induction l with
  | nil => simp [storeRemove, storeGet]
  | cons e rest ih =>
      obtain ⟨k', c⟩ := e
      by_cases hk : k' = k
      · simpa [storeRemove, hk] using ih
      · simpa [storeRemove, storeGet, hk] using ih

/-- Removing a key leaves other slots alone. -/
theorem storeGet_storeRemove_ne (l : List (Key × ChunkObj)) {k k' : Key}
    (h : k ≠ k') : storeGet (storeRemove l k) k' = storeGet l k' := by
  induction l with
  | nil => simp [storeRemove]
  | cons e rest ih =>
      obtain ⟨k0, c⟩ := e
      by_cases hk : k0 = k
      · subst hk
        simpa [storeRemove, storeGet, h] using ih
      · simp only [storeRemove, if_neg hk, storeGet]
        by_cases hk' : k0 = k'
        · simp [hk']
        · simpa [hk'] using ih

/-- `updateLodById` rewrites only the LOD of the matching identity. -/
theorem storeGet_updateLodById (l : List (Key × ChunkObj)) (cid lod : ℕ) (k : Key) :
    storeGet (updateLodById l cid lod) k
      = (storeGet l k).map
          (fun ch => if ch.cid = cid then { ch with lod := lod } else ch) := by
  induction l with
  | nil => simp [updateLodById, storeGet]
  | cons e rest ih =>
      obtain ⟨k0, c⟩ := e
      simp only [updateLodById, List.map_cons]
      by_cases hc : c.cid = cid
      · rw [if_pos hc]
        by_cases hk : k0 = k
        · subst hk
          simp [storeGet, hc]
        · simp only [storeGet, if_neg hk]
          simpa [updateLodById] using ih
      · rw [if_neg hc]
        by_cases hk : k0 = k
        · subst hk
          simp [storeGet, hc]
        · simp only [storeGet, if_neg hk]
          simpa [updateLodById] using ih

/-- Deleting one key from the active set keeps the others. -/
theorem setDel_mem {l : List Key} {k k' : Key} (h : k' ∈ l) (hne : k' ≠ k) :
    k' ∈ setDel l k := by
  induction l with
  | nil => simp at h
  | cons e rest ih =>
      rcases List.mem_cons.1 h with he | hrest
      · subst he
        simp [setDel, hne]
      · by_cases hk : e = k
        · simpa [setDel, hk] using ih hrest
        · simp only [setDel, if_neg hk]
          exact List.mem_cons.2 (Or.inr (ih hrest))

/-! ## C2 — the pending-op queue is not deduplicated for create ops -/

set_option maxRecDepth 1000000 in
/-- C2 counterexample: a reachable queue (constructor at the origin, one
tick with the target at cell `(2, 0)`) holds **two** pending ops for cell
`(3, 0)` — the dedup lookup `findIndex(el => el.id === key)` never matches
create ops, which carry the cell in `key` rather than `id`. -/
theorem pool_duplicate_key_counterexample :
    opsForKey (runTicks cexCfg cexStart [(2, 0)]).pool (3, 0) = 2 := by decide

/-- C2 amended: the replace-in-place rule holds for the `id` field only: a
new op for a key with a pending op carrying that `id` (an update op)
replaces it in that slot, leaving the length unchanged, and a key with no
pending `id`-carrying op is appended — create ops carry their cell in
`key`, are invisible to the lookup, and therefore can accumulate. -/
theorem poolUpsert_spec (pool : List PoolEl) (key : Key) (el : PoolEl) :
    (∀ n, pool.findIdx? (fun e => e.id == some key) = some n →
      (poolUpsert pool key el).length = pool.length ∧
        (poolUpsert pool key el)[n]? = some el) ∧
    (pool.findIdx? (fun e => e.id == some key) = none →
      poolUpsert pool key el = pool ++ [el]) := by
  constructor
  · intro n hn
    have hlt : n < pool.length :=
      (List.findIdx?_eq_some_iff_findIdx_eq.1 hn).1
    unfold poolUpsert
    rw [hn]
    exact ⟨List.length_set pool n el, by simp [List.getElem?_set_self', hlt]⟩
  · intro hn
    unfold poolUpsert
    rw [hn]

/-- C2 amended witness: replacing the unique pending update op for
`(3, 0)` keeps the queue length at 1 and puts the later op in the slot. -/
theorem poolUpsert_spec_witness :
    (poolUpsert demoPool (3, 0) demoUpdateEl2).length = demoPool.length ∧
      (poolUpsert demoPool (3, 0) demoUpdateEl2)[0]? = some demoUpdateEl2 :=
  (poolUpsert_spec demoPool (3, 0) demoUpdateEl2).1 0 (by decide)

/-! ## C1 — physics attachment is an iff only at creation time -/

set_option maxRecDepth 1000000 in
/-- C1 counterexample: a reachable state (constructor at the origin, then
the `cexTrace` target course with a physics world attached) violates the
claimed invariant: chunk `(3, 0)` was created at LOD 1 with a heightfield,
then an update op raised its LOD to 2 — at distance 3 from the origin it no
longer satisfies the physics predicate, yet its approximation is never
removed while it stays resident. -/
theorem physics_iff_counterexample :
    physicsInvariant (runTicks cexCfg cexStart cexTrace) = false := by decide

/-- C1 amended: at creation time the iff does hold — with a physics world, a
newly created chunk receives exactly one live approximation iff its
effective LOD (after the `LOD || params.LOD` fallback) is at most 1 or its
cell is within distance 2 of the origin; a chunk created otherwise receives
none.  (The counterexample above shows the iff is not preserved by ticks:
raising the LOD never removes an approximation.) -/
theorem createChunk_physics_iff (c : Cfg) (s : MState) (i j : ℤ) (lod : ℕ)
    (hphys : c.hasPhysics = true)
    (habsent : storeGet s.chunks (i, j) = none)
    (hfresh : s.nextId ∉ s.physicsBodies) :
    ∃ ch : ChunkObj,
      storeGet (createChunk c s i j lod).1.chunks (i, j) = some ch ∧
      ch.lod = (if lod = 0 then c.paramsLOD else lod) ∧
      (createChunk c s i j lod).1.physicsBodies.count ch.cid
        = (if ch.lod ≤ 1 ∨ i ^ 2 + j ^ 2 ≤ 4 then 1 else 0) := by
  unfold createChunk
  rw [if_pos habsent]
  set L := if lod = 0 then c.paramsLOD else lod with hL
  set ch : ChunkObj := ⟨s.nextId, (i, j), L⟩ with hch
  have hget : storeGet (s.chunks ++ [((i, j), ch)]) (i, j) = some ch :=
    storeGet_append_fresh habsent ch
  have hcount0 : s.physicsBodies.count s.nextId = 0 := List.count_eq_zero.2 hfresh
  by_cases hcond : L ≤ 1 ∨ i ^ 2 + j ^ 2 ≤ 4
  · rw [if_pos (by exact ⟨by simp [hphys], hcond⟩)]
    refine ⟨ch, hget, rfl, ?_⟩
    rw [if_pos hcond]
    simp [physicsAdd, List.count_append, hcount0]
  · rw [if_neg (by
      intro hcontra
      exact hcond hcontra.2)]
    refine ⟨ch, hget, rfl, ?_⟩
    rw [if_neg hcond]
    exact hcount0

/-- C1 amended witness: creating chunk `(3, 0)` at LOD 1 in the empty store
yields exactly one live approximation for it. -/
theorem createChunk_physics_iff_witness :
    ∃ ch : ChunkObj,
      storeGet (createChunk cexCfg emptyState 3 0 1).1.chunks (3, 0) = some ch ∧
      ch.lod = (if (1:ℕ) = 0 then cexCfg.paramsLOD else 1) ∧
      (createChunk cexCfg emptyState 3 0 1).1.physicsBodies.count ch.cid
        = (if ch.lod ≤ 1 ∨ (3:ℤ) ^ 2 + 0 ^ 2 ≤ 4 then 1 else 0) :=
  createChunk_physics_iff cexCfg emptyState 3 0 1 rfl rfl (by decide)

/-! ## C3 — protected chunks are never removed -/

/-- Fold preservation of a predicate. -/
theorem foldl_preserve {α : Type _} {β : Type _} (P : α → Prop) (f : α → β → α)
    (h : ∀ a b, P a → P (f a b)) :
    ∀ (l : List β) (a : α), P a → P (l.foldl f a) := by
  intro l
  induction l with
  | nil => intro a ha; exact ha
  | cons b tl ih => intro a ha; exact ih _ (h a b ha)

/-- Any queued callback either leaves the store alone, appends one fresh
binding, or rewrites LODs in place. -/
theorem execCB_chunks (c : Cfg) (s : MState) (cb : CB) :
    ((execCB c s cb).1).chunks = s.chunks ∨
    (∃ e : Key × ChunkObj, e.2.coords = e.1 ∧
      ((execCB c s cb).1).chunks = s.chunks ++ [e]) ∨
    (∃ cid' lod', ((execCB c s cb).1).chunks = updateLodById s.chunks cid' lod') := by
  cases cb with
  | createCB k w lod =>
      unfold execCB createChunk
      dsimp only
      by_cases habs : storeGet s.chunks (k, w) = none
      · rw [if_pos habs]
        split <;> split <;> exact Or.inr (Or.inl ⟨_, rfl, rfl⟩)
      · rw [if_neg habs]
        exact Or.inl rfl
  | updateCB cid' key' lod =>
      unfold execCB
      dsimp only
      split <;> exact Or.inr (Or.inr ⟨cid', lod, rfl⟩)
  | paramsLodCB cid' lod => exact Or.inr (Or.inr ⟨cid', lod, rfl⟩)
  | paramsRebuildCB cid' key' =>
      unfold execCB
      dsimp only
      split <;> exact Or.inl rfl

/-- Executing any queued callback keeps every resident chunk resident. -/
theorem resident_execCB {key : Key} {cid : ℕ} (c : Cfg) (s : MState) (cb : CB)
    (h : Resident key cid s) : Resident key cid (execCB c s cb).1 := by
  obtain ⟨ch, hch, hcid⟩ := h
  rcases execCB_chunks c s cb with heq | ⟨e, -, heq⟩ | ⟨cid', lod', heq⟩
  · exact ⟨ch, by rw [heq]; exact hch, hcid⟩
  · exact ⟨ch, by rw [heq]; exact storeGet_append_some hch _, hcid⟩
  · refine ⟨if ch.cid = cid' then { ch with lod := lod' } else ch, ?_, ?_⟩
    · show storeGet ((execCB c s cb).1).chunks key = _
      rw [heq, storeGet_updateLodById, hch]
      rfl
    · split <;> simpa using hcid

/-- The budgeted pop loop keeps every resident chunk resident. -/
theorem resident_runPops {key : Key} {cid : ℕ} (c : Cfg) :
    ∀ (fuel count : ℕ) (s : MState), Resident key cid s →
      Resident key cid (runPops c fuel count s).1 := by
  intro fuel
  induction fuel with
  | zero => intro count s h; exact h
  | succ f ih =>
      intro count s h
      rw [runPops]
      cases hl : s.pool.getLast? with
      | none => exact ih _ _ h
      | some el =>
          dsimp only
          have h0 : Resident key cid { s with pool := s.pool.dropLast } := h
          have h1 := resident_execCB c { s with pool := s.pool.dropLast } el.callback h0
          split
          · exact h1
          · exact ih _ _ h1

/-- A cell whose coordinate is protected never changes the store. -/
theorem processCell_chunks_protected (c : Cfg) (i j : ℤ) (s : MState)
    {cell : Key} (hprot : cell.1 ^ 2 + cell.2 ^ 2 ≤ 4) :
    ((processCell c i j s cell).1).chunks = s.chunks := by
  unfold processCell
  dsimp only
  split
  · cases storeGet s.chunks cell <;> rfl
  · rfl

/-- Any rescan cell either leaves the store alone or removes exactly its
own key. -/
theorem processCell_chunks (c : Cfg) (i j : ℤ) (s : MState) (cell : Key) :
    ((processCell c i j s cell).1).chunks = s.chunks ∨
    ((processCell c i j s cell).1).chunks = storeRemove s.chunks cell := by
  unfold processCell disposeChunkOp
  dsimp only
  split
  · cases storeGet s.chunks cell with
    | none => exact Or.inl rfl
    | some ch =>
        dsimp only
        by_cases hpr : cell.1 ^ 2 + cell.2 ^ 2 ≤ 4
        · rw [if_pos hpr]
          exact Or.inl rfl
        · rw [if_neg hpr]
          by_cases hg : ch.coords.1 ^ 2 + ch.coords.2 ^ 2 ≤ 1
          · rw [if_pos hg]
            by_cases hph : cell ∈ s.activePhysics ∧ c.hasPhysics = true
            · rw [if_pos hph]
              exact Or.inl rfl
            · rw [if_neg hph]
              exact Or.inl rfl
          · rw [if_neg hg]
            by_cases hph : cell ∈ s.activePhysics ∧ c.hasPhysics = true
            · rw [if_pos hph]
              exact Or.inr rfl
            · rw [if_neg hph]
              exact Or.inr rfl
  · exact Or.inl rfl

/-- One rescan cell keeps a protected resident chunk resident. -/
theorem resident_processCell {key : Key} {cid : ℕ} (c : Cfg) (i j : ℤ)
    (hprot : key.1 ^ 2 + key.2 ^ 2 ≤ 4) (s : MState) (cell : Key)
    (h : Resident key cid s) : Resident key cid (processCell c i j s cell).1 := by
  obtain ⟨ch, hch, hcid⟩ := h
  by_cases hc : cell = key
  · subst hc
    refine ⟨ch, ?_, hcid⟩
    rw [show ((processCell c i j s cell).1).chunks = s.chunks from
      processCell_chunks_protected c i j s hprot]
    exact hch
  · rcases processCell_chunks c i j s cell with heq | heq
    · exact ⟨ch, by rw [heq]; exact hch, hcid⟩
    · refine ⟨ch, ?_, hcid⟩
      rw [heq, storeGet_storeRemove_ne _ hc]
      exact hch

/-- One tick keeps a protected resident chunk resident. -/
theorem resident_tick {key : Key} {cid : ℕ} (c : Cfg)
    (hprot : key.1 ^ 2 + key.2 ^ 2 ≤ 4) (s : MState) (pos : ℚ × ℚ)
    (h : Resident key cid s) : Resident key cid (tickS c s pos) := by
  unfold tickS tick
  dsimp only
  split
  · exact resident_runPops c _ _ _ h
  · refine foldl_preserve (fun acc : MState × List Ev => Resident key cid acc.1)
      _ ?_ _ _ h
    intro a b ha
    exact resident_processCell c _ _ hprot a.1 b ha

/-- C3: a resident chunk whose grid coordinate lies within distance 2 of the
world origin is never removed from the store by any sequence of scheduler
ticks, no matter where the target moves: the rescan loop skips protected
cells before reaching `disposeChunk`, and no other path removes store
entries. -/
theorem protected_chunk_never_removed (c : Cfg) (s : MState) (key : Key)
    (ch : ChunkObj) (ps : List (ℚ × ℚ))
    (hres : storeGet s.chunks key = some ch)
    (hprot : key.1 ^ 2 + key.2 ^ 2 ≤ 4) :
    ∃ ch' : ChunkObj, storeGet (runTicks c s ps).chunks key = some ch' ∧
      ch'.cid = ch.cid :=
  foldl_preserve (Resident key ch.cid) (tickS c)
    (fun a b ha => resident_tick c hprot a b ha) ps s ⟨ch, hres, rfl⟩

/-- C3 witness: the origin chunk survives a tick that moves the target far
away. -/
theorem protected_chunk_never_removed_witness :
    ∃ ch' : ChunkObj,
      storeGet (runTicks cexCfg c3State [(10, 10)]).chunks (0, 0) = some ch' ∧
      ch'.cid = protoChunk.cid :=
  protected_chunk_never_removed cexCfg c3State (0, 0) protoChunk [(10, 10)]
    rfl (by decide)

/-! ## C4 — out-of-range chunks are removed inline during the rescan -/

/-- Any rescan cell either leaves the active-physics set alone or deletes
exactly its own key from it. -/
theorem processCell_activePhysics (c : Cfg) (i j : ℤ) (s : MState) (cell : Key) :
    ((processCell c i j s cell).1).activePhysics = s.activePhysics ∨
    ((processCell c i j s cell).1).activePhysics = setDel s.activePhysics cell := by
  unfold processCell disposeChunkOp
  dsimp only
  split
  · cases storeGet s.chunks cell with
    | none => exact Or.inl rfl
    | some ch =>
        dsimp only
        by_cases hpr : cell.1 ^ 2 + cell.2 ^ 2 ≤ 4
        · rw [if_pos hpr]
          exact Or.inl rfl
        · rw [if_neg hpr]
          by_cases hg : ch.coords.1 ^ 2 + ch.coords.2 ^ 2 ≤ 1
          · rw [if_pos hg]
            by_cases hph : cell ∈ s.activePhysics ∧ c.hasPhysics = true
            · rw [if_pos hph]
              exact Or.inr rfl
            · rw [if_neg hph]
              exact Or.inl rfl
          · rw [if_neg hg]
            by_cases hph : cell ∈ s.activePhysics ∧ c.hasPhysics = true
            · rw [if_pos hph]
              exact Or.inr rfl
            · rw [if_neg hph]
              exact Or.inl rfl
  · exact Or.inl rfl

/-- Once a key's store slot is empty, the rest of the rescan keeps it empty
and only appends further events. -/
theorem rescanFold_none (c : Cfg) (i j : ℤ) (key : Key) :
    ∀ (L : List Key) (s : MState) (evs : List Ev),
      storeGet s.chunks key = none →
      storeGet ((L.foldl (rescanStep c i j) (s, evs)).1).chunks key = none ∧
      ∃ suffix, (L.foldl (rescanStep c i j) (s, evs)).2 = evs ++ suffix := by
  intro L
  induction L with
  | nil => intro s evs h; exact ⟨h, [], by simp⟩
  | cons cell tl ih =>
      intro s evs h
      have hstep : storeGet ((processCell c i j s cell).1).chunks key = none := by
        rcases processCell_chunks c i j s cell with heq | heq
        · rw [heq]; exact h
        · rw [heq]
          by_cases hc : cell = key
          · subst hc; exact storeGet_storeRemove_self _ _
          · rw [storeGet_storeRemove_ne _ hc]; exact h
      have hfold : (cell :: tl).foldl (rescanStep c i j) (s, evs)
          = tl.foldl (rescanStep c i j)
              ((processCell c i j s cell).1, evs ++ (processCell c i j s cell).2) := rfl
      rw [hfold]
      obtain ⟨h1, suffix, h2⟩ := ih _ _ hstep
      refine ⟨h1, (processCell c i j s cell).2 ++ suffix, ?_⟩
      rw [h2, List.append_assoc]

/-- The rescan loop removes a resident, unprotected, physics-carrying,
out-of-range window cell inline: afterwards its slot is empty, and the
event trace shows `removeHeightfield`, then `dispose`, then the store drop,
contiguously and in that order. -/
theorem rescanFold_removes (c : Cfg) (i j : ℤ) (key : Key) (ch : ChunkObj)
    (hout : isOutOfRange c key.1 key.2 i j = true)
    (hunprot : ¬ (key.1 ^ 2 + key.2 ^ 2 ≤ 4))
    (hcoords : ch.coords = key)
    (hphys : c.hasPhysics = true) :
    ∀ (L : List Key) (s : MState) (evs : List Ev),
      key ∈ L →
      storeGet s.chunks key = some ch →
      key ∈ s.activePhysics →
      storeGet ((L.foldl (rescanStep c i j) (s, evs)).1).chunks key = none ∧
      ∃ pre post, (L.foldl (rescanStep c i j) (s, evs)).2
        = pre ++ [Ev.removePhysics key ch.cid, Ev.disposeChunk ch.cid key,
                  Ev.dropKey key] ++ post := by
  intro L
  induction L with
  | nil => intro s evs hmem; exact absurd hmem (List.not_mem_nil key)
  | cons cell tl ih =>
      intro s evs hmem hres hact
      by_cases hck : cell = key
      · subst hck
        have hguard : ¬ (ch.coords.1 ^ 2 + ch.coords.2 ^ 2 ≤ 1) := by
          rw [hcoords]
          intro hh
          exact hunprot (le_trans hh (by norm_num))
        have hcond : cell ∈ s.activePhysics ∧ c.hasPhysics = true := ⟨hact, hphys⟩
        have hkey : processCell c i j s cell
            = ({ s with chunks := storeRemove s.chunks cell,
                        chunkKeys := s.chunkKeys.filter (fun k => k ≠ cell),
                        activePhysics := setDel s.activePhysics cell,
                        physicsBodies := physicsRemove s.physicsBodies ch.cid },
               [Ev.removePhysics cell ch.cid, Ev.disposeChunk ch.cid cell,
                Ev.dropKey cell]) := by
          unfold processCell disposeChunkOp
          dsimp only
          rw [if_pos hout, hres]
          dsimp only
          rw [if_neg hunprot, if_pos hcond]
          dsimp only
          rw [if_neg hguard]
          rfl
        have hfold : (cell :: tl).foldl (rescanStep c i j) (s, evs)
            = tl.foldl (rescanStep c i j)
                ((processCell c i j s cell).1, evs ++ (processCell c i j s cell).2) := rfl
        rw [hfold, hkey]
        dsimp only
        obtain ⟨h1, suffix, h2⟩ := rescanFold_none c i j cell tl
          ({ s with chunks := storeRemove s.chunks cell,
                    chunkKeys := s.chunkKeys.filter (fun k => k ≠ cell),
                    activePhysics := setDel s.activePhysics cell,
                    physicsBodies := physicsRemove s.physicsBodies ch.cid })
          (evs ++ [Ev.removePhysics cell ch.cid, Ev.disposeChunk ch.cid cell,
                   Ev.dropKey cell])
          (storeGet_storeRemove_self s.chunks cell)
        refine ⟨h1, evs, suffix, ?_⟩
        rw [h2, List.append_assoc]
      · have htl : key ∈ tl := by
          rcases List.mem_cons.1 hmem with h | h
          · exact absurd h.symm hck
          · exact h
        have hres2 : storeGet ((processCell c i j s cell).1).chunks key = some ch := by
          rcases processCell_chunks c i j s cell with heq | heq
          · rw [heq]; exact hres
          · rw [heq, storeGet_storeRemove_ne _ hck]; exact hres
        have hact2 : key ∈ ((processCell c i j s cell).1).activePhysics := by
          rcases processCell_activePhysics c i j s cell with heq | heq
          · rw [heq]; exact hact
          · rw [heq]
            exact setDel_mem hact (fun hh => hck hh.symm)
        have hfold : (cell :: tl).foldl (rescanStep c i j) (s, evs)
            = tl.foldl (rescanStep c i j)
                ((processCell c i j s cell).1, evs ++ (processCell c i j s cell).2) := rfl
        rw [hfold]
        exact ih _ _ htl hres2 hact2

/-- C4: on a rescan tick (the target's cell changed), every window cell
holding a resident, non-protected chunk outside the combined distance bound
is removed from the store in that same tick: removal runs inline for every
such cell of the window — it is never placed on the pending-op queue (the
queued-callback type has no remove form) and is not limited by the per-tick
budget, which only applies to the unchanged-target branch — and the tick's
event trace shows physics teardown strictly before visual disposal, which
precedes the store drop. -/
theorem outOfRange_removed_same_tick (c : Cfg) (s : MState) (pos : ℚ × ℚ)
    (cell : Key) (ch : ChunkObj)
    (hchanged : ¬ s.lastChunkVisited = some (getCoordsByTarget c pos))
    (hin : cell ∈ rescanCells c (getCoordsByTarget c pos).1 (getCoordsByTarget c pos).2)
    (hout : isOutOfRange c cell.1 cell.2 (getCoordsByTarget c pos).1
      (getCoordsByTarget c pos).2 = true)
    (hres : storeGet s.chunks cell = some ch)
    (hcoords : ch.coords = cell)
    (hunprot : ¬ (cell.1 ^ 2 + cell.2 ^ 2 ≤ 4))
    (hact : cell ∈ s.activePhysics)
    (hphys : c.hasPhysics = true) :
    storeGet ((tick c s pos).1).chunks cell = none ∧
    ∃ pre post, (tick c s pos).2
      = pre ++ [Ev.removePhysics cell ch.cid, Ev.disposeChunk ch.cid cell,
                Ev.dropKey cell] ++ post := by
  unfold tick
  dsimp only
  rw [if_neg hchanged]
  exact rescanFold_removes c (getCoordsByTarget c pos).1 (getCoordsByTarget c pos).2
    cell ch hout hunprot hcoords hphys
    (rescanCells c (getCoordsByTarget c pos).1 (getCoordsByTarget c pos).2)
    _ [] hin hres hact

/-- C4 witness: a tick at the origin removes the far-away chunk `(5, 5)`
inline, with teardown order physics, then dispose, then drop. -/
theorem outOfRange_removed_same_tick_witness :
    storeGet ((tick cexCfg c4State (0, 0)).1).chunks (5, 5) = none ∧
    ∃ pre post, (tick cexCfg c4State (0, 0)).2
      = pre ++ [Ev.removePhysics (5, 5) c4Chunk.cid,
                Ev.disposeChunk c4Chunk.cid (5, 5), Ev.dropKey (5, 5)] ++ post :=
  outOfRange_removed_same_tick cexCfg c4State (0, 0) (5, 5) c4Chunk
    (by decide) (by decide) (by decide) rfl rfl (by decide) (by decide) rfl

/-! ## The coords field of every resident chunk equals its store key

`createChunk` is the only code that writes into the store and it sets
`chunk.coords = [i, j]`; this justifies the `coords` hypothesis of the
removal theorem above for every reachable state. -/

/-- Inverting a lookup in a one-element extension. -/
theorem storeGet_append_single_inv {l : List (Key × ChunkObj)}
    {e : Key × ChunkObj} {k : Key} {ch : ChunkObj}
    (h : storeGet (l ++ [e]) k = some ch) :
    storeGet l k = some ch ∨ (e.1 = k ∧ e.2 = ch) := by
  obtain ⟨k0, c0⟩ := e
  induction l with
  | nil =>
      simp only [List.nil_append, storeGet] at h
      by_cases hk : k0 = k
      · rw [if_pos hk] at h
        right
        exact ⟨hk, by simpa using h⟩
      · rw [if_neg hk] at h
        simp [storeGet] at h
  | cons hd tl ih =>
      obtain ⟨k1, c1⟩ := hd
      by_cases hk : k1 = k
      · simp only [List.cons_append, storeGet, if_pos hk] at h ⊢
        exact Or.inl h
      · simp only [List.cons_append, storeGet, if_neg hk] at h ⊢
        exact ih h

/-- Inverting a lookup through a removal. -/
theorem storeRemove_some_inv {l : List (Key × ChunkObj)} {k0 k : Key}
    {ch : ChunkObj} (h : storeGet (storeRemove l k0) k = some ch) :
    storeGet l k = some ch := by
  by_cases hk : k0 = k
  · subst hk
    rw [storeGet_storeRemove_self] at h
    exact absurd h (by simp)
  · rwa [storeGet_storeRemove_ne _ hk] at h

/-- Queued callbacks preserve coords consistency. -/
theorem coordsConsistent_execCB (c : Cfg) (s : MState) (cb : CB)
    (h : CoordsConsistent s) : CoordsConsistent (execCB c s cb).1 := by
  rcases execCB_chunks c s cb with heq | ⟨e, hec, heq⟩ | ⟨cid', lod', heq⟩
  · intro key ch hget
    rw [heq] at hget
    exact h key ch hget
  · intro key ch hget
    rw [heq] at hget
    rcases storeGet_append_single_inv hget with hg | ⟨h1, h2⟩
    · exact h key ch hg
    · rw [← h2, ← h1]
      exact hec
  · intro key ch hget
    rw [heq, storeGet_updateLodById] at hget
    cases hsg : storeGet s.chunks key with
    | none =>
        rw [hsg] at hget
        simp at hget
    | some ch0 =>
        rw [hsg] at hget
        simp only [Option.map_some', Option.some.injEq] at hget
        have hc := h key ch0 hsg
        rw [← hget]
        split <;> exact hc

/-- The budgeted pop loop preserves coords consistency. -/
theorem coordsConsistent_runPops (c : Cfg) :
    ∀ (fuel count : ℕ) (s : MState), CoordsConsistent s →
      CoordsConsistent (runPops c fuel count s).1 := by
  intro fuel
  induction fuel with
  | zero => intro count s h; exact h
  | succ f ih =>
      intro count s h
      rw [runPops]
      cases hl : s.pool.getLast? with
      | none => exact ih _ _ h
      | some el =>
          dsimp only
          have h0 : CoordsConsistent { s with pool := s.pool.dropLast } := h
          have h1 := coordsConsistent_execCB c { s with pool := s.pool.dropLast }
            el.callback h0
          split
          · exact h1
          · exact ih _ _ h1

/-- Rescan cells preserve coords consistency. -/
theorem coordsConsistent_processCell (c : Cfg) (i j : ℤ) (s : MState) (cell : Key)
    (h : CoordsConsistent s) : CoordsConsistent (processCell c i j s cell).1 := by
  rcases processCell_chunks c i j s cell with heq | heq
  · intro key ch hg
    rw [heq] at hg
    exact h key ch hg
  · intro key ch hg
    rw [heq] at hg
    exact h key ch (storeRemove_some_inv hg)

/-- One tick preserves coords consistency. -/
theorem coordsConsistent_tick (c : Cfg) (s : MState) (pos : ℚ × ℚ)
    (h : CoordsConsistent s) : CoordsConsistent (tickS c s pos) := by
  unfold tickS tick
  dsimp only
  split
  · exact coordsConsistent_runPops c _ _ _ h
  · refine foldl_preserve (fun acc : MState × List Ev => CoordsConsistent acc.1)
      _ ?_ _ _ h
    intro a b ha
    exact coordsConsistent_processCell c _ _ a.1 b ha

/-- Every state the manager reaches (constructor plus any tick sequence) is
coords-consistent: each resident chunk's `coords` field is its store key. -/
theorem coordsConsistent_reachable (c : Cfg) (pos : ℚ × ℚ) (ps : List (ℚ × ℚ)) :
    CoordsConsistent (runTicks c (initState c pos) ps) := by
  have hempty : CoordsConsistent emptyState := by
    intro key ch hg
    simp [storeGet, emptyState] at hg
  have hinit : CoordsConsistent (initState c pos) := by
    unfold initState
    dsimp only
    have h1 := coordsConsistent_tick c emptyState pos hempty
    have h2 : CoordsConsistent (createChunk c (tickS c emptyState pos) 0 0 0).1 :=
      coordsConsistent_execCB c _ (.createCB 0 0 0) h1
    exact foldl_preserve CoordsConsistent _
      (fun s kv hs => coordsConsistent_execCB c s (.createCB kv.1 kv.2 0) hs)
      ringCells _ h2
  exact foldl_preserve CoordsConsistent (tickS c)
    (fun a b ha => coordsConsistent_tick c a b ha) ps _ hinit

end Terrain
